import Mathlib

/-
  Shallow embedding of the table merge engine of excel_service.py.

  A pandas DataFrame loaded from a spreadsheet is modelled as a Table:
  an ordered list of column names together with an ordered list of rows,
  each row a list of cell values positioned like the columns.  Incoming
  JSON records are association lists from column name to value.  Cell
  values are the JSON scalars the service receives: integers, strings,
  booleans and null (pandas NaN / Python None are both modelled as null).
-/

namespace ExcelService

/-- A scalar cell value: the JSON scalars handled by the service.
Null stands for both Python None and pandas NaN. -/
inductive Value where
  | int  (n : Int)
  | str  (s : String)
  | bool (b : Bool)
  | null
deriving DecidableEq

/-- Elementwise equality as pandas evaluates df[col] == v: missing values
(NaN / None) compare unequal to everything, including themselves; numbers
and strings never compare equal across types; numpy booleans compare equal
to the integers 1 and 0. -/
def valueEq : Value → Value → Bool
  | Value.int a,  Value.int b  => a == b
  | Value.str a,  Value.str b  => a == b
  | Value.bool a, Value.bool b => a == b
  | Value.int a,  Value.bool b => a == (if b then (1 : Int) else 0)
  | Value.bool a, Value.int b  => (if a then (1 : Int) else 0) == b
  | _,            _            => false

/-- A row of the DataFrame: one value per column, by position. -/
abbrev Row := List Value

/-- An incoming JSON record: an association list from column name to value.
Python dicts have unique keys; theorems that depend on this carry a Nodup
hypothesis on the key list. -/
abbrev Record := List (String × Value)

/-- The key set of a record, as a list (dict key iteration order). -/
def keys (r : Record) : List String := r.map Prod.fst

/-- The value a Python dict access record[c] yields (the dict is only
accessed when the key is present; null is a dummy default). -/
def recordValue (r : Record) (c : String) : Value :=
  (r.lookup c).getD Value.null

/-- Position of column c in the column list, leftmost occurrence. -/
def colIdx : List String → String → Option Nat
  | [], _ => none
  | x :: xs, c => if x == c then some 0 else (colIdx xs c).map (fun i => i + 1)

/-- Read the cell of a row under column c (pandas df[c] for one row). -/
def getCell (cols : List String) (row : Row) (c : String) : Value :=
  match colIdx cols c with
  | some i => row.getD i Value.null
  | none => Value.null

/-- Write the cell of a row under column c; no-op when c is not a column. -/
def setCellAt (cols : List String) (row : Row) (c : String) (v : Value) : Row :=
  match colIdx cols c with
  | some i => row.set i v
  | none => row

/-- An in-memory DataFrame: fixed ordered columns and ordered rows. -/
structure Table where
  cols : List String
  rows : List Row
deriving DecidableEq

/-- Well-formedness of a loaded table: every row has one cell per column.
Tables produced by read_excel_file always satisfy this. -/
def Table.WF (t : Table) : Prop := ∀ row ∈ t.rows, row.length = t.cols.length

/-- Build one new row from a record, exactly as
pd.DataFrame([record], columns=df.columns) does: for each existing column
take the record value when the key is present, else NaN; record keys
outside the column list are dropped. -/
def buildRow (cols : List String) (r : Record) : Row :=
  cols.map (fun c => (r.lookup c).getD Value.null)

/-- The df.loc[mask, c] = v assignment over a whole column: rows whose mask
entry is true get v in column c, the rest are untouched. -/
def locSetMask (cols : List String) (rows : List Row) (mask : List Bool)
    (c : String) (v : Value) : List Row :=
  (rows.zip mask).map (fun p => if p.2 then setCellAt cols p.1 c v else p.1)

/-- The update loop of smart_update lines 112 to 114: for col, value in
record.items(): if col in df.columns: df.loc[mask, col] = value. -/
def updateMatched (cols : List String) (rows : List Row) (mask : List Bool)
    (r : Record) : List Row :=
  r.foldl (fun acc p => if cols.contains p.1 then locSetMask cols acc mask p.1 p.2 else acc) rows

/-- Appending one record as a new row:
df = pd.concat([df, pd.DataFrame([record], columns=df.columns)]). -/
def appendRow (t : Table) (r : Record) : Table :=
  ⟨t.cols, t.rows ++ [buildRow t.cols r]⟩

/-- Running state of the smart_update loop: the evolving DataFrame plus the
updated_count and added_count counters. -/
structure MergeState where
  table : Table
  updated : Nat
  added : Nat
deriving DecidableEq

/-- The boolean mask df[c] == v over all rows of the table. -/
def matchMask (t : Table) (c : String) (v : Value) : List Bool :=
  t.rows.map (fun row => valueEq (getCell t.cols row c) v)

/-- The body of the smart_update for-loop (excel_service.py lines 104-125)
for one incoming record.  The Python guard is
`if match_column and match_column in record and match_column in df.columns`,
where a None or empty-string match_column is falsy; otherwise the record is
appended.  On a match the mask is computed once against the current rows,
every record column existing in the table is assigned over the mask, and
updated_count grows by mask.sum(); with no match the record is appended and
added_count grows by one. -/
def processRecord (mc : Option String) (st : MergeState) (r : Record) : MergeState :=
  match mc with
  | none => ⟨appendRow st.table r, st.updated, st.added + 1⟩
  | some m =>
    if (!(m == "")) && (keys r).contains m && st.table.cols.contains m then
      let v := recordValue r m
      let mask := matchMask st.table m v
      if mask.any (fun b => b) then
        ⟨⟨st.table.cols, updateMatched st.table.cols st.table.rows mask r⟩,
          st.updated + mask.count true, st.added⟩
      else
        ⟨appendRow st.table r, st.updated, st.added + 1⟩
    else
      ⟨appendRow st.table r, st.updated, st.added + 1⟩

/-- The smart_update merge loop over a whole batch: records are folded in
input order over the evolving state, starting from the loaded table and
zero counters. -/
def smartUpdate (t : Table) (records : List Record) (mc : Option String) : MergeState :=
  records.foldl (processRecord mc) ⟨t, 0, 0⟩

/-- The shared append core of append_to_next_row and append_excel:
new_df = pd.DataFrame(new_data, columns=df.columns);
pd.concat([df, new_df], ignore_index=True). -/
def appendCore (t : Table) (records : List Record) : Table :=
  ⟨t.cols, t.rows ++ records.map (buildRow t.cols)⟩

/-- Python truthiness of the optional file_path string: None and the empty
string are falsy. -/
def strFalsy : Option String → Bool
  | none => true
  | some s => s == ""

/-- Python truthiness of the optional new_data list: None and the empty
list are falsy. -/
def listFalsy {α : Type} : Option (List α) → Bool
  | none => true
  | some l => l.isEmpty

/-- Response of the append_to_next_row endpoint, keeping the parts the
claims are about: the resulting table that gets persisted, the
new_row_numbers list and total_rows on success; the 400 body on a falsy
file_path or new_data; 404 when the file is missing. -/
inductive AppendResponse where
  | ok (table : Table) (newRowNumbers : List Nat) (totalRows : Nat)
  | badRequest (msg : String)
  | notFound
deriving DecidableEq

/-- The append_to_next_row handler (lines 34-77): validation of the two
request fields by Python truthiness, existence check, then the pure append
of the records projected onto the existing columns.  new_row_numbers is
list(range(len(df) + 1, len(updated_df) + 1)). -/
def append_to_next_row (file_path : Option String) (new_data : Option (List Record))
    (fileExists : Bool) (df : Table) : AppendResponse :=
  if strFalsy file_path || listFalsy new_data then
    AppendResponse.badRequest "file_path and new_data are required"
  else if !fileExists then
    AppendResponse.notFound
  else
    let records := new_data.getD []
    let updated := appendCore df records
    AppendResponse.ok updated
      (List.range' (df.rows.length + 1) records.length)
      updated.rows.length

/-- Response of the append_excel endpoint (no new_row_numbers field). -/
inductive AppendExcelResponse where
  | ok (table : Table) (totalRows : Nat)
  | badRequest (msg : String)
  | notFound
deriving DecidableEq

/-- The append_excel handler (lines 146-180), the backward-compatible
duplicate of append_to_next_row. -/
def append_excel (file_path : Option String) (new_data : Option (List Record))
    (fileExists : Bool) (df : Table) : AppendExcelResponse :=
  if strFalsy file_path || listFalsy new_data then
    AppendExcelResponse.badRequest "file_path and new_data are required"
  else if !fileExists then
    AppendExcelResponse.notFound
  else
    let records := new_data.getD []
    let updated := appendCore df records
    AppendExcelResponse.ok updated updated.rows.length

/-- One update tuple of the update_excel endpoint. -/
structure UpdateSpec where
  condition_column : String
  condition_value : Value
  update_column : String
  new_value : Value
deriving DecidableEq

/-- The error raised inside the update_excel loop: the pandas KeyError on
df[condition_column] when the condition column is absent, which the handler
surfaces as a generic 500.  This is the failure the spec names
UnknownColumn. -/
inductive UpdateError where
  | keyError (col : String)
deriving DecidableEq

/-- The df.loc[mask, c] = v statement of update_excel, including pandas
setting-with-enlargement: when c is not an existing column it is appended
as a new column holding v on masked rows and NaN elsewhere. -/
def locSet (t : Table) (mask : List Bool) (c : String) (v : Value) : Table :=
  if t.cols.contains c then
    ⟨t.cols, locSetMask t.cols t.rows mask c v⟩
  else
    ⟨t.cols ++ [c],
      (t.rows.zip mask).map (fun p => p.1 ++ [if p.2 then v else Value.null])⟩

/-- One iteration of the update_excel loop (lines 198-202): reading
df[condition_column] raises KeyError when the column is absent; otherwise
rows matching the condition value receive new_value in update_column and
the count grows by mask.sum(). -/
def applyUpdate (t : Table) (u : UpdateSpec) : Except UpdateError (Table × Nat) :=
  if t.cols.contains u.condition_column then
    let mask := matchMask t u.condition_column u.condition_value
    if mask.any (fun b => b) then
      Except.ok (locSet t mask u.update_column u.new_value, mask.count true)
    else
      Except.ok (t, 0)
  else
    Except.error (UpdateError.keyError u.condition_column)

/-- The update_excel loop over all tuples, threading the evolving table and
the cumulative updated_count; the first KeyError aborts the handler. -/
def updateLoop : Table → Nat → List UpdateSpec → Except UpdateError (Table × Nat)
  | t, n, [] => Except.ok (t, n)
  | t, n, u :: us =>
    match applyUpdate t u with
    | Except.ok p => updateLoop p.1 (n + p.2) us
    | Except.error e => Except.error e

/-- The update_excel merge core: the loop started on the loaded table with a
zero count. -/
def update_excel (t : Table) (updates : List UpdateSpec) : Except UpdateError (Table × Nat) :=
  updateLoop t 0 updates

/-- The table that ends up on disk after the update_excel endpoint runs:
df.to_excel is reached only when the loop finishes, so on an error the
stored table is still the loaded one. -/
def updateStored (t : Table) (updates : List UpdateSpec) : Table :=
  match update_excel t updates with
  | Except.ok p => p.1
  | Except.error _ => t

/-- Proof helper, not part of the source: a record is covered by a table
when some row carries a match-column cell equal (in the pandas sense) to
the record match value — exactly the condition under which the smart
update loop takes its update branch instead of appending. -/
def covered (m : String) (t : Table) (r : Record) : Prop :=
  ∃ row ∈ t.rows, valueEq (getCell t.cols row m) (recordValue r m) = true

/-! ### Basic list and cell lemmas -/

theorem getD_set_self (l : List Value) (i : Nat) (v : Value) (h : i < l.length) :
    (l.set i v).getD i Value.null = v := by
  induction l generalizing i with
  | nil => simp at h
  | cons x xs ih =>
    cases i with
    | zero => rfl
    | succ n =>
      have hn : n < xs.length := by simpa using h
      simpa using ih n hn

theorem getD_set_ne (l : List Value) (i j : Nat) (v : Value) (h : i ≠ j) :
    (l.set i v).getD j Value.null = l.getD j Value.null := by
  induction l generalizing i j with
  | nil => rfl
  | cons x xs ih =>
    cases i with
    | zero =>
      cases j with
      | zero => exact absurd rfl h
      | succ m => rfl
    | succ n =>
      cases j with
      | zero => rfl
      | succ m =>
        have : n ≠ m := by omega
        simpa using ih n m this

theorem getD_map (f : String → Value) (l : List String) (i : Nat) (h : i < l.length) :
    (l.map f).getD i Value.null = f (l.getD i "") := by
  induction l generalizing i with
  | nil => simp at h
  | cons x xs ih =>
    cases i with
    | zero => rfl
    | succ n =>
      have hn : n < xs.length := by simpa using h
      simpa using ih n hn

theorem contains_eq_true_iff (l : List String) (c : String) :
    l.contains c = true ↔ c ∈ l := by
  simp

theorem colIdx_lt (cols : List String) (c : String) (i : Nat)
    (h : colIdx cols c = some i) : i < cols.length := by
  induction cols generalizing i with
  | nil => simp [colIdx] at h
  | cons x xs ih =>
    by_cases hx : (x == c) = true
    · simp [colIdx, hx] at h
      simp [← h]
    · simp [colIdx, hx] at h
      obtain ⟨j, hj, hji⟩ := h
      have := ih j hj
      simp
      omega

theorem colIdx_getD (cols : List String) (c : String) (i : Nat)
    (h : colIdx cols c = some i) : cols.getD i "" = c := by
  induction cols generalizing i with
  | nil => simp [colIdx] at h
  | cons x xs ih =>
    by_cases hx : (x == c) = true
    · simp [colIdx, hx] at h
      subst h
      simpa using eq_of_beq hx
    · simp [colIdx, hx] at h
      obtain ⟨j, hj, hji⟩ := h
      subst hji
      simpa using ih j hj

theorem colIdx_eq_none_iff (cols : List String) (c : String) :
    colIdx cols c = none ↔ c ∉ cols := by
  induction cols with
  | nil => simp [colIdx]
  | cons x xs ih =>
    by_cases hx : (x == c) = true
    · have : x = c := eq_of_beq hx
      subst this
      simp [colIdx, hx]
    · have hne : x ≠ c := fun he => hx (by simp [he])
      simp [colIdx, hx, ih, hne, Ne.symm hne]

theorem colIdx_exists_of_mem (cols : List String) (c : String) (h : c ∈ cols) :
    ∃ i, colIdx cols c = some i := by
  cases hco : colIdx cols c with
  | none => exact absurd ((colIdx_eq_none_iff cols c).mp hco) (by simpa using h)
  | some i => exact ⟨i, rfl⟩

theorem colIdx_inj (cols : List String) (c c2 : String) (i : Nat)
    (h : colIdx cols c = some i) (h2 : colIdx cols c2 = some i) : c = c2 := by
  have e1 := colIdx_getD cols c i h
  have e2 := colIdx_getD cols c2 i h2
  rw [← e1, ← e2]

theorem length_setCellAt (cols : List String) (row : Row) (c : String) (v : Value) :
    (setCellAt cols row c v).length = row.length := by
  unfold setCellAt
  cases colIdx cols c <;> simp

theorem getCell_setCellAt_self (cols : List String) (row : Row) (c : String) (v : Value)
    (hc : c ∈ cols) (hlen : cols.length ≤ row.length) :
    getCell cols (setCellAt cols row c v) c = v := by
  obtain ⟨i, hi⟩ := colIdx_exists_of_mem cols c hc
  have hilt : i < row.length := lt_of_lt_of_le (colIdx_lt cols c i hi) hlen
  unfold getCell setCellAt
  rw [hi]
  exact getD_set_self row i v hilt

theorem getCell_setCellAt_ne (cols : List String) (row : Row) (c c2 : String) (v : Value)
    (hne : c2 ≠ c) :
    getCell cols (setCellAt cols row c v) c2 = getCell cols row c2 := by
  unfold getCell setCellAt
  cases hc : colIdx cols c with
  | none => rfl
  | some i =>
    cases hc2 : colIdx cols c2 with
    | none => rfl
    | some j =>
      have hij : i ≠ j := by
        intro he
        subst he
        exact hne (colIdx_inj cols c c2 i hc hc2).symm
      exact getD_set_ne row i j v hij

theorem length_buildRow (cols : List String) (r : Record) :
    (buildRow cols r).length = cols.length := by
  simp [buildRow]

theorem getCell_buildRow (cols : List String) (r : Record) (c : String) (hc : c ∈ cols) :
    getCell cols (buildRow cols r) c = (r.lookup c).getD Value.null := by
  obtain ⟨i, hi⟩ := colIdx_exists_of_mem cols c hc
  unfold getCell buildRow
  rw [hi]
  dsimp only
  rw [getD_map _ cols i (colIdx_lt cols c i hi), colIdx_getD cols c i hi]

theorem mem_keys_cons (p : String × Value) (es : Record) (c : String) :
    c ∈ keys (p :: es) ↔ c = p.1 ∨ c ∈ keys es := by
  simp [keys]

theorem lookup_eq_none_of_not_mem_keys (r : Record) (c : String) (h : c ∉ keys r) :
    r.lookup c = none := by
  induction r with
  | nil => rfl
  | cons p es ih =>
    have h1 : (c == p.1) = false := by
      apply beq_eq_false_iff_ne.mpr
      intro he
      exact h ((mem_keys_cons p es c).mpr (Or.inl he))
    have h2 : c ∉ keys es := by
      intro hm
      exact h ((mem_keys_cons p es c).mpr (Or.inr hm))
    simp only [List.lookup, h1]
    exact ih h2

theorem lookup_filter_contains (cols : List String) (r : Record) (c : String)
    (hc : c ∈ cols) :
    (r.filter (fun p => cols.contains p.1)).lookup c = r.lookup c := by
  induction r with
  | nil => rfl
  | cons p es ih =>
    cases hk : cols.contains p.1 with
    | true =>
      simp only [List.filter, hk]
      cases hpc : (c == p.1) <;> simp only [List.lookup, hpc, ih]
    | false =>
      have hpc : (c == p.1) = false := by
        apply beq_eq_false_iff_ne.mpr
        intro he
        have hto : cols.contains p.1 = true := (contains_eq_true_iff cols p.1).mpr (he ▸ hc)
        rw [hk] at hto
        exact Bool.noConfusion hto
      simp only [List.filter, hk]
      simp only [List.lookup, hpc, ih]

/-! ### Branch lemmas for the smart_update loop -/

theorem mask_any_iff (t : Table) (m : String) (v : Value) :
    ((matchMask t m v).any (fun b => b) = true) ↔
      ∃ row ∈ t.rows, valueEq (getCell t.cols row m) v = true := by
  simp [matchMask]

theorem mask_any_false_iff (t : Table) (m : String) (v : Value) :
    ((matchMask t m v).any (fun b => b) = false) ↔
      ∀ row ∈ t.rows, valueEq (getCell t.cols row m) v = false := by
  rw [← Bool.not_eq_true, mask_any_iff]
  push_neg
  constructor
  · intro h row hrow
    simpa using h row hrow
  · intro h row hrow
    simp [h row hrow]

theorem smart_guard_true (t : Table) (r : Record) (m : String)
    (hm : m ≠ "") (hkr : m ∈ keys r) (hkc : m ∈ t.cols) :
    ((!(m == "")) && (keys r).contains m && t.cols.contains m) = true := by
  simp [hm, hkr, hkc]

theorem processRecord_matched (t : Table) (u a : Nat) (r : Record) (m : String)
    (hm : m ≠ "") (hkr : m ∈ keys r) (hkc : m ∈ t.cols)
    (hmatch : (matchMask t m (recordValue r m)).any (fun b => b) = true) :
    processRecord (some m) ⟨t, u, a⟩ r =
      ⟨⟨t.cols, updateMatched t.cols t.rows (matchMask t m (recordValue r m)) r⟩,
        u + (matchMask t m (recordValue r m)).count true, a⟩ := by
  simp only [processRecord, smart_guard_true t r m hm hkr hkc, if_true, hmatch]

theorem true_not_mem_of_any_false (l : List Bool) (h : l.any (fun b => b) = false) :
    true ∉ l := by
  intro hmem
  have ht : l.any (fun b => b) = true := List.any_eq_true.mpr ⟨true, hmem, by simp⟩
  rw [h] at ht
  exact Bool.noConfusion ht

theorem processRecord_append_of (t : Table) (u a : Nat) (r : Record) (mc : Option String)
    (h : ∀ m, mc = some m →
      m = "" ∨ m ∉ keys r ∨ m ∉ t.cols ∨
        (matchMask t m (recordValue r m)).any (fun b => b) = false) :
    processRecord mc ⟨t, u, a⟩ r = ⟨appendRow t r, u, a + 1⟩ := by
  cases mc with
  | none => rfl
  | some m =>
    rcases h m rfl with h1 | h1 | h1 | h1
    · subst h1
      simp [processRecord]
    · simp [processRecord]
      intro _ h2 _
      exact absurd h2 h1
    · simp [processRecord]
      intro _ _ h3
      exact absurd h3 h1
    · simp [processRecord]
      intro _ _ _
      exact true_not_mem_of_any_false _ h1

theorem processRecord_cols (mc : Option String) (st : MergeState) (r : Record) :
    (processRecord mc st r).table.cols = st.table.cols := by
  cases mc with
  | none => rfl
  | some m =>
    simp only [processRecord]
    split
    · split <;> rfl
    · rfl

theorem processRecord_shift (mc : Option String) (t : Table) (u a : Nat) (r : Record) :
    processRecord mc ⟨t, u, a⟩ r =
      ⟨(processRecord mc ⟨t, 0, 0⟩ r).table,
       u + (processRecord mc ⟨t, 0, 0⟩ r).updated,
       a + (processRecord mc ⟨t, 0, 0⟩ r).added⟩ := by
  cases mc with
  | none => simp [processRecord, appendRow]
  | some m =>
    simp only [processRecord]
    split
    · split <;> simp
    · simp

theorem foldl_shift (mc : Option String) (rs : List Record) :
    ∀ (t : Table) (u a : Nat),
      rs.foldl (processRecord mc) ⟨t, u, a⟩ =
        ⟨(smartUpdate t rs mc).table,
         u + (smartUpdate t rs mc).updated,
         a + (smartUpdate t rs mc).added⟩ := by
  induction rs with
  | nil =>
    intro t u a
    simp [smartUpdate]
  | cons r rest ih =>
    intro t u a
    show rest.foldl (processRecord mc) (processRecord mc ⟨t, u, a⟩ r) =
      ⟨(smartUpdate t (r :: rest) mc).table,
       u + (smartUpdate t (r :: rest) mc).updated,
       a + (smartUpdate t (r :: rest) mc).added⟩
    rw [processRecord_shift]
    rcases hs : processRecord mc ⟨t, 0, 0⟩ r with ⟨t1, u1, a1⟩
    have hrec : smartUpdate t (r :: rest) mc = rest.foldl (processRecord mc) ⟨t1, u1, a1⟩ := by
      show rest.foldl (processRecord mc) (processRecord mc ⟨t, 0, 0⟩ r) = _
      rw [hs]
    dsimp only
    rw [ih t1 (u + u1) (a + a1), hrec, ih t1 u1 a1]
    simp [Nat.add_assoc]

theorem smartUpdate_cols (t : Table) (rs : List Record) (mc : Option String) :
    (smartUpdate t rs mc).table.cols = t.cols := by
  have h : ∀ (st : MergeState), (rs.foldl (processRecord mc) st).table.cols = st.table.cols := by
    induction rs with
    | nil => intro st; rfl
    | cons r rest ih =>
      intro st
      show (rest.foldl (processRecord mc) (processRecord mc st r)).table.cols = _
      rw [ih (processRecord mc st r), processRecord_cols]
  exact h ⟨t, 0, 0⟩

/-! ### Characterization of the masked column-assignment loop -/

theorem getD_mem_rows (l : List Row) (i : Nat) (h : i < l.length) : l.getD i [] ∈ l := by
  induction l generalizing i with
  | nil => simp at h
  | cons x xs ih =>
    cases i with
    | zero => simp
    | succ n =>
      have hn : n < xs.length := by simpa using h
      simpa using Or.inr (ih n hn)

theorem locSetMask_length (cols : List String) (rows : List Row) (mask : List Bool)
    (c : String) (v : Value) (hlen : mask.length = rows.length) :
    (locSetMask cols rows mask c v).length = rows.length := by
  simp [locSetMask, hlen]

theorem locSetMask_getD (cols : List String) (rows : List Row) (mask : List Bool)
    (c : String) (v : Value) (hlen : mask.length = rows.length)
    (i : Nat) (hi : i < rows.length) :
    (locSetMask cols rows mask c v).getD i [] =
      if mask.getD i false = true then setCellAt cols (rows.getD i []) c v
      else rows.getD i [] := by
  induction rows generalizing mask i with
  | nil => simp at hi
  | cons row rest ih =>
    cases mask with
    | nil => simp at hlen
    | cons b bs =>
      cases i with
      | zero => rfl
      | succ n =>
        have hn : n < rest.length := by simpa using hi
        have hlen2 : bs.length = rest.length := by simpa using hlen
        have hcons : locSetMask cols (row :: rest) (b :: bs) c v =
            (if b = true then setCellAt cols row c v else row) ::
              locSetMask cols rest bs c v := rfl
        rw [hcons]
        simpa using ih bs hlen2 n hn

theorem locSetMask_WF (cols : List String) (rows : List Row) (mask : List Bool)
    (c : String) (v : Value) (L : Nat) (h : ∀ row ∈ rows, row.length = L) :
    ∀ row2 ∈ locSetMask cols rows mask c v, row2.length = L := by
  intro row2 hm
  rcases List.mem_map.mp hm with ⟨p, hp, hfp⟩
  have hp1 : p.1 ∈ rows := (List.of_mem_zip hp).1
  by_cases hb : p.2 = true
  · rw [← hfp]
    simp [hb, length_setCellAt, h p.1 hp1]
  · rw [← hfp]
    simp [hb, h p.1 hp1]

theorem updateMatched_length (cols : List String) :
    ∀ (r : Record) (rows : List Row) (mask : List Bool),
      mask.length = rows.length →
      (updateMatched cols rows mask r).length = rows.length := by
  intro r
  induction r with
  | nil => intro rows mask _; rfl
  | cons p es ih =>
    intro rows mask hlen
    have hstep : updateMatched cols rows mask (p :: es) =
        updateMatched cols
          (if cols.contains p.1 then locSetMask cols rows mask p.1 p.2 else rows)
          mask es := rfl
    rw [hstep]
    by_cases hc : cols.contains p.1 = true
    · rw [if_pos hc]
      rw [ih (locSetMask cols rows mask p.1 p.2) mask
        (by rw [locSetMask_length cols rows mask p.1 p.2 hlen]; exact hlen)]
      exact locSetMask_length cols rows mask p.1 p.2 hlen
    · rw [if_neg hc]
      exact ih rows mask hlen

theorem updateMatched_WF (cols : List String) :
    ∀ (r : Record) (rows : List Row) (mask : List Bool) (L : Nat),
      (∀ row ∈ rows, row.length = L) →
      ∀ row2 ∈ updateMatched cols rows mask r, row2.length = L := by
  intro r
  induction r with
  | nil => intro rows mask L h; exact h
  | cons p es ih =>
    intro rows mask L h
    have hstep : updateMatched cols rows mask (p :: es) =
        updateMatched cols
          (if cols.contains p.1 then locSetMask cols rows mask p.1 p.2 else rows)
          mask es := rfl
    rw [hstep]
    by_cases hc : cols.contains p.1 = true
    · rw [if_pos hc]
      exact ih (locSetMask cols rows mask p.1 p.2) mask L
        (locSetMask_WF cols rows mask p.1 p.2 L h)
    · rw [if_neg hc]
      exact ih rows mask L h

theorem updateMatched_getCell (cols : List String) :
    ∀ (r : Record) (rows : List Row) (mask : List Bool),
      (keys r).Nodup →
      mask.length = rows.length →
      (∀ row ∈ rows, row.length = cols.length) →
      ∀ i, i < rows.length → ∀ c,
        getCell cols ((updateMatched cols rows mask r).getD i []) c =
          if mask.getD i false = true ∧ c ∈ keys r ∧ c ∈ cols
          then (r.lookup c).getD Value.null
          else getCell cols (rows.getD i []) c := by
  intro r
  induction r with
  | nil =>
    intro rows mask _ _ _ i hi c
    rw [if_neg (by simp [keys])]
    rfl
  | cons p es ih =>
    intro rows mask hnd hlen hwf i hi c
    have hstep : updateMatched cols rows mask (p :: es) =
        updateMatched cols
          (if cols.contains p.1 then locSetMask cols rows mask p.1 p.2 else rows)
          mask es := rfl
    have hkeys : keys (p :: es) = p.1 :: keys es := rfl
    have hnd2 : (keys es).Nodup := by
      rw [hkeys] at hnd
      exact hnd.of_cons
    have hp_not : p.1 ∉ keys es := by
      rw [hkeys] at hnd
      exact (List.nodup_cons.mp hnd).1
    by_cases hc : cols.contains p.1 = true
    · rw [hstep, if_pos hc]
      have hlen2 : (locSetMask cols rows mask p.1 p.2).length = rows.length :=
        locSetMask_length cols rows mask p.1 p.2 hlen
      have hih := ih (locSetMask cols rows mask p.1 p.2) mask hnd2
        (by rw [hlen2]; exact hlen)
        (locSetMask_WF cols rows mask p.1 p.2 cols.length hwf)
        i (by rw [hlen2]; exact hi) c
      rw [hih]
      have hloc := locSetMask_getD cols rows mask p.1 p.2 hlen i hi
      by_cases hmask : mask.getD i false = true
      · rw [if_pos hmask] at hloc
        by_cases hck : c ∈ keys es
        · have hcp : c ≠ p.1 := fun he => hp_not (he ▸ hck)
          have hbeq : (c == p.1) = false := beq_eq_false_iff_ne.mpr hcp
          by_cases hcc : c ∈ cols
          · rw [if_pos ⟨hmask, hck, hcc⟩,
              if_pos ⟨hmask, (mem_keys_cons p es c).mpr (Or.inr hck), hcc⟩]
            simp [List.lookup, hbeq]
          · rw [if_neg (fun hcon => hcc hcon.2.2), if_neg (fun hcon => hcc hcon.2.2),
              hloc, getCell_setCellAt_ne cols _ p.1 c p.2 hcp]
        · by_cases hcp : c = p.1
          · have hcc : c ∈ cols := by
              rw [hcp]
              exact (contains_eq_true_iff cols p.1).mp hc
            have hcc1 : p.1 ∈ cols := by
              rw [← hcp]
              exact hcc
            rw [if_neg (fun hcon => hck hcon.2.1)]
            rw [if_pos ⟨hmask, (mem_keys_cons p es c).mpr (Or.inl hcp), hcc⟩]
            have hrowlen : cols.length ≤ (rows.getD i []).length :=
              le_of_eq (hwf (rows.getD i []) (getD_mem_rows rows i hi)).symm
            rw [hloc, hcp, getCell_setCellAt_self cols _ p.1 p.2 hcc1 hrowlen]
            simp [List.lookup]
          · have hknot : c ∉ keys (p :: es) := by
              rw [hkeys]
              simp only [List.mem_cons]
              push_neg
              exact ⟨hcp, hck⟩
            rw [if_neg (fun hcon => hck hcon.2.1), if_neg (fun hcon => hknot hcon.2.1),
              hloc, getCell_setCellAt_ne cols _ p.1 c p.2 hcp]
      · rw [if_neg hmask] at hloc
        rw [if_neg (fun hcon => hmask hcon.1), if_neg (fun hcon => hmask hcon.1), hloc]
    · rw [hstep, if_neg hc]
      rw [ih rows mask hnd2 hlen hwf i hi c]
      by_cases hck : c ∈ keys es
      · have hcp : c ≠ p.1 := fun he => hp_not (he ▸ hck)
        have hbeq : (c == p.1) = false := beq_eq_false_iff_ne.mpr hcp
        by_cases hrest : mask.getD i false = true ∧ c ∈ cols
        · rw [if_pos ⟨hrest.1, hck, hrest.2⟩,
            if_pos ⟨hrest.1, (mem_keys_cons p es c).mpr (Or.inr hck), hrest.2⟩]
          simp [List.lookup, hbeq]
        · rw [if_neg (fun hcon => hrest ⟨hcon.1, hcon.2.2⟩),
            if_neg (fun hcon => hrest ⟨hcon.1, hcon.2.2⟩)]
      · by_cases hcp : c = p.1
        · have hcc : c ∉ cols := by
            intro hm
            rw [hcp] at hm
            exact hc ((contains_eq_true_iff cols p.1).mpr hm)
          rw [if_neg (fun hcon => hcc hcon.2.2), if_neg (fun hcon => hcc hcon.2.2)]
        · have hknot : c ∉ keys (p :: es) := by
            rw [hkeys]
            simp only [List.mem_cons]
            push_neg
            exact ⟨hcp, hck⟩
          rw [if_neg (fun hcon => hck hcon.2.1), if_neg (fun hcon => hknot hcon.2.1)]

theorem getD_map_bool (f : Row → Bool) (l : List Row) (i : Nat) (h : i < l.length) :
    (l.map f).getD i false = f (l.getD i []) := by
  induction l generalizing i with
  | nil => simp at h
  | cons x xs ih =>
    cases i with
    | zero => rfl
    | succ n =>
      have hn : n < xs.length := by simpa using h
      simpa using ih n hn

theorem count_true_map (rows : List Row) (f : Row → Bool) :
    (rows.map f).count true = rows.countP f := by
  induction rows with
  | nil => rfl
  | cons row rest ih =>
    simp only [List.map_cons, List.count_cons, List.countP_cons, ih]
    cases hf : f row <;> simp

theorem count_true_pos_of_any (l : List Bool) (h : l.any (fun b => b) = true) :
    0 < l.count true := by
  rcases List.any_eq_true.mp h with ⟨b, hb, hbt⟩
  have hbt2 : b = true := by simpa using hbt
  subst hbt2
  exact List.count_pos_iff.mpr hb

/-! ### Shared helper lemmas for the claim theorems -/

theorem append_handler_ok (t : Table) (records : List Record) (fp : String)
    (hfp : fp ≠ "") (hne : records ≠ []) :
    append_to_next_row (some fp) (some records) true t =
      AppendResponse.ok ⟨t.cols, t.rows ++ records.map (buildRow t.cols)⟩
        (List.range' (t.rows.length + 1) records.length)
        (t.rows.length + records.length) := by
  have hval : (strFalsy (some fp) || listFalsy (some records)) = false := by
    simp [strFalsy, listFalsy, hfp, hne]
  unfold append_to_next_row
  rw [hval]
  simp [appendCore]

theorem buildRow_filter (cols : List String) (r : Record) :
    buildRow cols r = buildRow cols (r.filter (fun p => cols.contains p.1)) := by
  unfold buildRow
  apply List.map_congr_left
  intro c hc
  rw [lookup_filter_contains cols r c hc]

/-! ### Claim theorems -/

/-- Claim C1: for a record whose match value equals the stored match-column
value of at least one row, smart update overwrites, in every matching row,
every column present in the record that exists in the table with the record
value (all other cells and all non-matching rows are untouched), appends
nothing, and increments the updated counter by the number of matching rows
(one record matching k rows contributes k). -/
theorem matched_record_updates_all (t : Table) (r : Record) (m : String)
    (hwf : t.WF) (hm : m ≠ "") (hkr : m ∈ keys r) (hkc : m ∈ t.cols)
    (hnd : (keys r).Nodup)
    (hmatch : ∃ row ∈ t.rows, valueEq (getCell t.cols row m) (recordValue r m) = true) :
    (smartUpdate t [r] (some m)).table.cols = t.cols ∧
    (smartUpdate t [r] (some m)).table.rows.length = t.rows.length ∧
    (smartUpdate t [r] (some m)).added = 0 ∧
    (smartUpdate t [r] (some m)).updated =
      t.rows.countP (fun row => valueEq (getCell t.cols row m) (recordValue r m)) ∧
    0 < t.rows.countP (fun row => valueEq (getCell t.cols row m) (recordValue r m)) ∧
    (∀ i, i < t.rows.length → ∀ c,
      getCell t.cols ((smartUpdate t [r] (some m)).table.rows.getD i []) c =
        if valueEq (getCell t.cols (t.rows.getD i []) m) (recordValue r m) = true ∧
            c ∈ keys r ∧ c ∈ t.cols
        then (r.lookup c).getD Value.null
        else getCell t.cols (t.rows.getD i []) c) := by
  have hany : (matchMask t m (recordValue r m)).any (fun b => b) = true :=
    (mask_any_iff t m (recordValue r m)).mpr hmatch
  have heq := processRecord_matched t 0 0 r m hm hkr hkc hany
  have h1 : smartUpdate t [r] (some m) = processRecord (some m) ⟨t, 0, 0⟩ r := rfl
  have hcount : (matchMask t m (recordValue r m)).count true =
      t.rows.countP (fun row => valueEq (getCell t.cols row m) (recordValue r m)) :=
    count_true_map t.rows _
  rw [h1, heq]
  refine ⟨rfl, ?_, rfl, ?_, ?_, ?_⟩
  · exact updateMatched_length t.cols r t.rows _ (by simp [matchMask])
  · show 0 + (matchMask t m (recordValue r m)).count true = _
    rw [Nat.zero_add, hcount]
  · rw [← hcount]
    exact count_true_pos_of_any _ hany
  · intro i hi c
    have hmaskd : (matchMask t m (recordValue r m)).getD i false =
        valueEq (getCell t.cols (t.rows.getD i []) m) (recordValue r m) := by
      unfold matchMask
      exact getD_map_bool _ t.rows i hi
    show getCell t.cols
        ((updateMatched t.cols t.rows (matchMask t m (recordValue r m)) r).getD i []) c = _
    rw [updateMatched_getCell t.cols r t.rows _ hnd (by simp [matchMask]) hwf i hi c, hmaskd]

/-- Witness for C1 at the multi-match fan-out input of the spec: two of the
three rows share id 3, the record updates both status cells and reports
updatedCount 2. -/
theorem matched_record_updates_all_witness :
    (smartUpdate ⟨["id", "status"],
        [[Value.int 3, Value.str "a"], [Value.int 3, Value.str "b"],
         [Value.int 4, Value.str "c"]]⟩
      [[("id", Value.int 3), ("status", Value.str "done")]] (some "id")).table.cols =
        ["id", "status"] ∧
    (smartUpdate ⟨["id", "status"],
        [[Value.int 3, Value.str "a"], [Value.int 3, Value.str "b"],
         [Value.int 4, Value.str "c"]]⟩
      [[("id", Value.int 3), ("status", Value.str "done")]] (some "id")).table.rows.length =
        3 ∧
    (smartUpdate ⟨["id", "status"],
        [[Value.int 3, Value.str "a"], [Value.int 3, Value.str "b"],
         [Value.int 4, Value.str "c"]]⟩
      [[("id", Value.int 3), ("status", Value.str "done")]] (some "id")).added = 0 ∧
    (smartUpdate ⟨["id", "status"],
        [[Value.int 3, Value.str "a"], [Value.int 3, Value.str "b"],
         [Value.int 4, Value.str "c"]]⟩
      [[("id", Value.int 3), ("status", Value.str "done")]] (some "id")).updated =
      ([[Value.int 3, Value.str "a"], [Value.int 3, Value.str "b"],
        [Value.int 4, Value.str "c"]] : List Row).countP
        (fun row => valueEq (getCell ["id", "status"] row "id") (Value.int 3)) ∧
    0 < ([[Value.int 3, Value.str "a"], [Value.int 3, Value.str "b"],
        [Value.int 4, Value.str "c"]] : List Row).countP
        (fun row => valueEq (getCell ["id", "status"] row "id") (Value.int 3)) ∧
    (∀ i, i < ([[Value.int 3, Value.str "a"], [Value.int 3, Value.str "b"],
        [Value.int 4, Value.str "c"]] : List Row).length → ∀ c,
      getCell ["id", "status"]
          ((smartUpdate ⟨["id", "status"],
              [[Value.int 3, Value.str "a"], [Value.int 3, Value.str "b"],
               [Value.int 4, Value.str "c"]]⟩
            [[("id", Value.int 3), ("status", Value.str "done")]]
            (some "id")).table.rows.getD i []) c =
        if valueEq (getCell ["id", "status"]
              (([[Value.int 3, Value.str "a"], [Value.int 3, Value.str "b"],
                 [Value.int 4, Value.str "c"]] : List Row).getD i []) "id")
              (Value.int 3) = true ∧
            c ∈ keys [("id", Value.int 3), ("status", Value.str "done")] ∧
            c ∈ ["id", "status"]
        then (List.lookup c
            [("id", Value.int 3), ("status", Value.str "done")]).getD Value.null
        else getCell ["id", "status"]
          (([[Value.int 3, Value.str "a"], [Value.int 3, Value.str "b"],
             [Value.int 4, Value.str "c"]] : List Row).getD i []) c) := by
  exact matched_record_updates_all
    ⟨["id", "status"],
      [[Value.int 3, Value.str "a"], [Value.int 3, Value.str "b"],
       [Value.int 4, Value.str "c"]]⟩
    [("id", Value.int 3), ("status", Value.str "done")] "id"
    (by unfold Table.WF; decide) (by decide) (by decide) (by decide) (by decide)
    ⟨[Value.int 3, Value.str "a"], by decide, by decide⟩

/-- Claim C2: smartMerge processes the records of a batch strictly in input
order against the evolving table state.  First conjunct: splitting any batch
at any point, the records after the split are processed starting from the
table produced by the records before it (so later records see every earlier
update and append, not a snapshot), and the counters add up.  Second
conjunct: the concrete in-batch visibility scenario of the spec, where the
second record matches the row appended by the first record of the same
batch and updates it instead of appending a duplicate. -/
theorem smartUpdate_sequential_evolution :
    (∀ (t : Table) (rs1 rs2 : List Record) (mc : Option String),
      smartUpdate t (rs1 ++ rs2) mc =
        ⟨(smartUpdate (smartUpdate t rs1 mc).table rs2 mc).table,
         (smartUpdate t rs1 mc).updated +
           (smartUpdate (smartUpdate t rs1 mc).table rs2 mc).updated,
         (smartUpdate t rs1 mc).added +
           (smartUpdate (smartUpdate t rs1 mc).table rs2 mc).added⟩) ∧
    smartUpdate ⟨["id", "status"], [[Value.int 1, Value.str "a"]]⟩
        [[("id", Value.int 5), ("status", Value.str "new")],
         [("id", Value.int 5), ("status", Value.str "done")]] (some "id") =
      ⟨⟨["id", "status"],
        [[Value.int 1, Value.str "a"], [Value.int 5, Value.str "done"]]⟩, 1, 1⟩ := by
  constructor
  · intro t rs1 rs2 mc
    rcases hs : smartUpdate t rs1 mc with ⟨t1, u1, a1⟩
    have h0 : rs1.foldl (processRecord mc) ⟨t, 0, 0⟩ = ⟨t1, u1, a1⟩ := hs
    show (rs1 ++ rs2).foldl (processRecord mc) ⟨t, 0, 0⟩ = _
    rw [List.foldl_append, h0, foldl_shift mc rs2 t1 u1 a1]
  · rfl

/-- Claim C3: matching is exact on value equality with no type coercion.
For any table whose match column stores the integer 7 in every row, a record
whose match value is the string "7" matches zero rows and is appended as a
new row, with the updated counter untouched. -/
theorem match_is_type_sensitive (t : Table) (r : Record) (m : String)
    (hm : m ≠ "") (hkr : m ∈ keys r) (hkc : m ∈ t.cols)
    (hstored : ∀ row ∈ t.rows, getCell t.cols row m = Value.int 7)
    (hval : r.lookup m = some (Value.str "7")) :
    smartUpdate t [r] (some m) =
      ⟨⟨t.cols, t.rows ++ [buildRow t.cols r]⟩, 0, 1⟩ := by
  have happ : processRecord (some m) ⟨t, 0, 0⟩ r = ⟨appendRow t r, 0, 0 + 1⟩ := by
    apply processRecord_append_of
    intro m2 hm2
    injection hm2 with hm2
    subst hm2
    refine Or.inr (Or.inr (Or.inr ?_))
    rw [mask_any_false_iff]
    intro row hrow
    rw [hstored row hrow]
    have hv : recordValue r m = Value.str "7" := by simp [recordValue, hval]
    rw [hv]
    rfl
  have h1 : smartUpdate t [r] (some m) = processRecord (some m) ⟨t, 0, 0⟩ r := rfl
  rw [h1, happ]
  rfl

/-- Witness for C3 at a concrete input: a table storing the integer 7 under
id, and the spec record with id "7"; the record is appended, not matched. -/
theorem match_is_type_sensitive_witness :
    smartUpdate ⟨["id"], [[Value.int 7]]⟩
        [[("id", Value.str "7"), ("name", Value.str "X")]] (some "id") =
      ⟨⟨["id"], [[Value.int 7], [Value.str "7"]]⟩, 0, 1⟩ := by
  exact match_is_type_sensitive ⟨["id"], [[Value.int 7]]⟩
    [("id", Value.str "7"), ("name", Value.str "X")] "id"
    (by decide) (by decide) (by decide) (by decide) (by decide)

/-- Claim C4: a record for which the match column is unset, or empty
(falsy), or absent from the record or the table columns, or whose match
value equals no stored value, is appended as exactly one new row built from
the table columns, bumping only the added counter; and a record sharing no
column names with the table appends an all-null row, with no error. -/
theorem unmatched_record_appends (t : Table) (r : Record) (mc : Option String)
    (h : ∀ m, mc = some m →
      m = "" ∨ m ∉ keys r ∨ m ∉ t.cols ∨
        (∀ row ∈ t.rows, valueEq (getCell t.cols row m) (recordValue r m) = false)) :
    smartUpdate t [r] mc = ⟨⟨t.cols, t.rows ++ [buildRow t.cols r]⟩, 0, 1⟩ ∧
    ((∀ c ∈ keys r, c ∉ t.cols) →
      buildRow t.cols r = List.replicate t.cols.length Value.null) := by
  constructor
  · have h1 : smartUpdate t [r] mc = processRecord mc ⟨t, 0, 0⟩ r := rfl
    rw [h1, processRecord_append_of]
    · rfl
    · intro m hm
      rcases h m hm with h2 | h2 | h2 | h2
      · exact Or.inl h2
      · exact Or.inr (Or.inl h2)
      · exact Or.inr (Or.inr (Or.inl h2))
      · exact Or.inr (Or.inr (Or.inr ((mask_any_false_iff t m (recordValue r m)).mpr h2)))
  · intro hdisj
    unfold buildRow
    have hnull : ∀ c ∈ t.cols, (fun c => (r.lookup c).getD Value.null) c =
        (fun _ => Value.null) c := by
      intro c hc
      have hck : c ∉ keys r := fun hk => hdisj c hk hc
      simp [lookup_eq_none_of_not_mem_keys r c hck]
    rw [List.map_congr_left hnull]
    simp

/-- Witness for C4 at a concrete input: the match column a exists in the
table but not in the record, whose single key zz is foreign to the table, so
an all-null row is appended. -/
theorem unmatched_record_appends_witness :
    smartUpdate ⟨["a", "b"], [[Value.int 1, Value.str "x"]]⟩
        [[("zz", Value.int 9)]] (some "a") =
      ⟨⟨["a", "b"],
        [[Value.int 1, Value.str "x"],
         [Value.null, Value.null]]⟩, 0, 1⟩ ∧
    ((∀ c ∈ keys [("zz", Value.int 9)], c ∉ ["a", "b"]) →
      buildRow ["a", "b"] [("zz", Value.int 9)] = List.replicate 2 Value.null) := by
  exact unmatched_record_appends ⟨["a", "b"], [[Value.int 1, Value.str "x"]]⟩
    [("zz", Value.int 9)] (some "a")
    (by
      intro m hm
      injection hm with hm
      subst hm
      exact Or.inr (Or.inl (by decide)))

/-- Claim C5: appending a nonempty batch succeeds and is a pure append: the
result has the old rows as an unchanged initial segment, followed by one row
per incoming record in input order, and the length adds up. -/
theorem appendAll_pure_append (t : Table) (records : List Record) (fp : String)
    (hfp : fp ≠ "") (hne : records ≠ []) :
    append_to_next_row (some fp) (some records) true t =
      AppendResponse.ok ⟨t.cols, t.rows ++ records.map (buildRow t.cols)⟩
        (List.range' (t.rows.length + 1) records.length)
        (t.rows.length + records.length) ∧
    (t.rows ++ records.map (buildRow t.cols)).length =
      t.rows.length + records.length ∧
    (t.rows ++ records.map (buildRow t.cols)).take t.rows.length = t.rows := by
  refine ⟨append_handler_ok t records fp hfp hne, by simp, ?_⟩
  rw [List.take_left]

/-- Witness for C5 at a concrete input: one record appended to a one-row,
two-column table; the missing column b renders as null. -/
theorem appendAll_pure_append_witness :
    append_to_next_row (some "data.xlsx") (some [[("a", Value.int 5)]]) true
        ⟨["a", "b"], [[Value.int 1, Value.int 2]]⟩ =
      AppendResponse.ok
        ⟨["a", "b"], [[Value.int 1, Value.int 2], [Value.int 5, Value.null]]⟩ [2] 2 ∧
    ([[Value.int 1, Value.int 2], [Value.int 5, Value.null]] : List Row).length = 1 + 1 ∧
    ([[Value.int 1, Value.int 2], [Value.int 5, Value.null]] : List Row).take 1 =
      [[Value.int 1, Value.int 2]] := by
  exact appendAll_pure_append ⟨["a", "b"], [[Value.int 1, Value.int 2]]⟩
    [[("a", Value.int 5)]] "data.xlsx" (by decide) (by decide)

/-- Claim C6 counterexample: a record with the key zz outside the column set
of the table does NOT make the append fail with a SchemaMismatch error — the
handler succeeds, silently dropping the foreign key (no schema error exists
anywhere in the code). -/
theorem appendAll_no_schema_error_counterexample :
    append_to_next_row (some "data.xlsx")
        (some [[("a", Value.int 2), ("zz", Value.int 9)]]) true
        ⟨["a"], [[Value.int 1]]⟩ =
      AppendResponse.ok ⟨["a"], [[Value.int 1], [Value.int 2]]⟩ [2] 2 := by
  rfl

/-- Claim C6 amended: a batch containing records with keys outside the
column set of the table is accepted, not rejected: the append succeeds, the
column set is unchanged (records are never widened), and each new row is
built from the record with its foreign keys silently dropped. -/
theorem appendAll_drops_unknown_keys (t : Table) (records : List Record) (fp : String)
    (hfp : fp ≠ "") (hne : records ≠ [])
    (hout : ∃ r ∈ records, ∃ p ∈ r, p.1 ∉ t.cols) :
    ∃ t2, append_to_next_row (some fp) (some records) true t =
        AppendResponse.ok t2 (List.range' (t.rows.length + 1) records.length)
          (t.rows.length + records.length) ∧
      t2.cols = t.cols ∧
      t2.rows = t.rows ++ records.map (buildRow t.cols) ∧
      records.map (buildRow t.cols) =
        records.map (fun r => buildRow t.cols (r.filter (fun p => t.cols.contains p.1))) := by
  refine ⟨⟨t.cols, t.rows ++ records.map (buildRow t.cols)⟩,
    append_handler_ok t records fp hfp hne, rfl, rfl, ?_⟩
  apply List.map_congr_left
  intro r _
  exact buildRow_filter t.cols r

/-- Witness for the amended C6: a record carrying both a known key a and a
foreign key zz appends one row holding only the a value. -/
theorem appendAll_drops_unknown_keys_witness :
    ∃ t2, append_to_next_row (some "data.xlsx")
        (some [[("a", Value.int 2), ("zz", Value.int 9)]]) true
        ⟨["a"], [[Value.int 1]]⟩ =
        AppendResponse.ok t2 (List.range' (1 + 1) 1) (1 + 1) ∧
      t2.cols = ["a"] ∧
      t2.rows = [[Value.int 1]] ++
        [[("a", Value.int 2), ("zz", Value.int 9)]].map (buildRow ["a"]) ∧
      [[("a", Value.int 2), ("zz", Value.int 9)]].map (buildRow ["a"]) =
        [[("a", Value.int 2), ("zz", Value.int 9)]].map
          (fun r => buildRow ["a"] (r.filter (fun p => List.contains ["a"] p.1))) := by
  exact appendAll_drops_unknown_keys ⟨["a"], [[Value.int 1]]⟩
    [[("a", Value.int 2), ("zz", Value.int 9)]] "data.xlsx"
    (by decide) (by decide)
    ⟨[("a", Value.int 2), ("zz", Value.int 9)], by decide,
      ("zz", Value.int 9), by decide, by decide⟩

/-- Claim C8 counterexample: a request with zero incoming records is turned
away by the very same falsy-field validation branch, with the very same 400
body, as a request with new_data missing altogether — there is no distinct
engine-level EmptyInput error. -/
theorem empty_records_same_as_missing_counterexample :
    append_to_next_row (some "data.xlsx") (some []) true ⟨["a"], []⟩ =
      AppendResponse.badRequest "file_path and new_data are required" ∧
    append_to_next_row (some "data.xlsx") none true ⟨["a"], []⟩ =
      AppendResponse.badRequest "file_path and new_data are required" := by
  exact ⟨rfl, rfl⟩

/-- Claim C8 amended: appendAll with zero incoming records is always
rejected — never a silent success — but through the missing-field
validation branch (Python falsiness of an empty list) with the 400 body
shared with the absent-field case, in both append endpoints. -/
theorem empty_records_rejected_as_validation :
    (∀ (fp : Option String) (ex : Bool) (t : Table),
      append_to_next_row fp (some []) ex t =
        AppendResponse.badRequest "file_path and new_data are required") ∧
    (∀ (fp : Option String) (ex : Bool) (t : Table),
      append_excel fp (some []) ex t =
        AppendExcelResponse.badRequest "file_path and new_data are required") := by
  constructor
  · intro fp ex t
    unfold append_to_next_row
    simp [listFalsy]
  · intro fp ex t
    unfold append_excel
    simp [listFalsy]

/-- Claim C10: every append and smart merge operation preserves the column
set of the existing table exactly and in order; record keys outside the
existing columns are dropped when new rows are built, so the table handed to
persistence always carries the loaded column list. -/
theorem column_set_preserved :
    (∀ (t : Table) (rs : List Record) (mc : Option String),
      (smartUpdate t rs mc).table.cols = t.cols) ∧
    (∀ (t : Table) (rs : List Record), (appendCore t rs).cols = t.cols) ∧
    (∀ (cols : List String) (r : Record),
      buildRow cols r = buildRow cols (r.filter (fun p => cols.contains p.1))) ∧
    (∀ (fp : Option String) (nd : Option (List Record)) (ex : Bool) (t t2 : Table)
        (nums : List Nat) (tot : Nat),
      append_to_next_row fp nd ex t = AppendResponse.ok t2 nums tot → t2.cols = t.cols) ∧
    (∀ (fp : Option String) (nd : Option (List Record)) (ex : Bool) (t t2 : Table)
        (tot : Nat),
      append_excel fp nd ex t = AppendExcelResponse.ok t2 tot → t2.cols = t.cols) := by
  refine ⟨smartUpdate_cols, fun t rs => rfl, buildRow_filter, ?_, ?_⟩
  · intro fp nd ex t t2 nums tot h
    unfold append_to_next_row at h
    split at h
    · exact absurd h (by simp)
    · split at h
      · exact absurd h (by simp)
      · rw [AppendResponse.ok.injEq] at h
        rw [← h.1]
        rfl
  · intro fp nd ex t t2 tot h
    unfold append_excel at h
    split at h
    · exact absurd h (by simp)
    · split at h
      · exact absurd h (by simp)
      · rw [AppendExcelResponse.ok.injEq] at h
        rw [← h.1]
        rfl

/-! ### update_excel loop lemmas and claim C7 -/

theorem updateLoop_append (xs ys : List UpdateSpec) :
    ∀ (t : Table) (n : Nat),
      updateLoop t n (xs ++ ys) =
        match updateLoop t n xs with
        | Except.ok p => updateLoop p.1 p.2 ys
        | Except.error e => Except.error e := by
  induction xs with
  | nil => intro t n; rfl
  | cons u us ih =>
    intro t n
    show (match applyUpdate t u with
      | Except.ok p => updateLoop p.1 (n + p.2) (us ++ ys)
      | Except.error e => Except.error e) = _
    cases hap : applyUpdate t u with
    | ok p =>
      have hr : updateLoop t n (u :: us) = updateLoop p.1 (n + p.2) us := by
        show (match applyUpdate t u with
          | Except.ok p => updateLoop p.1 (n + p.2) us
          | Except.error e => Except.error e) = _
        rw [hap]
      show updateLoop p.1 (n + p.2) (us ++ ys) = _
      rw [ih p.1 (n + p.2), hr]
    | error e =>
      have hr : updateLoop t n (u :: us) = Except.error e := by
        show (match applyUpdate t u with
          | Except.ok p => updateLoop p.1 (n + p.2) us
          | Except.error e => Except.error e) = _
        rw [hap]
      show Except.error e = _
      rw [hr]

theorem applyUpdate_error_of_missing (t : Table) (u : UpdateSpec)
    (h : u.condition_column ∉ t.cols) :
    applyUpdate t u = Except.error (UpdateError.keyError u.condition_column) := by
  have hb : ¬(t.cols.contains u.condition_column = true) :=
    fun hc => h ((contains_eq_true_iff t.cols u.condition_column).mp hc)
  unfold applyUpdate
  rw [if_neg hb]

/-- Claim C7 counterexample: a batch whose second tuple conditions on the
column b, absent from the loaded table, does NOT fail: the first tuple
assigns to the missing update column b, which pandas loc performs as
setting-with-enlargement, creating the column — so the second tuple finds
it, the whole batch succeeds, and a modified, widened table is persisted. -/
theorem conditionalUpdate_unknown_column_counterexample :
    ("b" ∉ (["a"] : List String)) ∧
    update_excel ⟨["a"], [[Value.int 1]]⟩
        [⟨"a", Value.int 1, "b", Value.int 2⟩, ⟨"b", Value.int 2, "a", Value.int 5⟩] =
      Except.ok (⟨["a", "b"], [[Value.int 5, Value.int 2]]⟩, 2) ∧
    updateStored ⟨["a"], [[Value.int 1]]⟩
        [⟨"a", Value.int 1, "b", Value.int 2⟩, ⟨"b", Value.int 2, "a", Value.int 5⟩] ≠
      ⟨["a"], [[Value.int 1]]⟩ := by
  exact ⟨by decide, rfl, by decide⟩

/-- Claim C7 amended: once the loop reaches a tuple whose condition column
is absent from the table as evolved by the earlier tuples of the batch
(earlier tuples may have introduced columns via loc enlargement), reading
df of that column raises the pandas KeyError — the failure the spec calls
UnknownColumn, surfaced as a generic 500 — the operation aborts, and
nothing is persisted: the stored table is exactly the loaded one. -/
theorem conditionalUpdate_unknown_column_fails (t t2 : Table) (n : Nat)
    (pre : List UpdateSpec) (u : UpdateSpec) (post : List UpdateSpec)
    (hpre : update_excel t pre = Except.ok (t2, n))
    (hu : u.condition_column ∉ t2.cols) :
    update_excel t (pre ++ u :: post) =
      Except.error (UpdateError.keyError u.condition_column) ∧
    updateStored t (pre ++ u :: post) = t := by
  have hpre2 : updateLoop t 0 pre = Except.ok (t2, n) := hpre
  have hloop : updateLoop t 0 (pre ++ u :: post) =
      Except.error (UpdateError.keyError u.condition_column) := by
    rw [updateLoop_append pre (u :: post) t 0, hpre2]
    show (match applyUpdate t2 u with
      | Except.ok p => updateLoop p.1 (n + p.2) post
      | Except.error e => Except.error e) = _
    rw [applyUpdate_error_of_missing t2 u hu]
  have hupd : update_excel t (pre ++ u :: post) =
      Except.error (UpdateError.keyError u.condition_column) := hloop
  constructor
  · exact hupd
  · unfold updateStored
    rw [hupd]

/-- Witness for the amended C7: a single tuple conditioned on the missing
column zz fails immediately and the stored table is the loaded one. -/
theorem conditionalUpdate_unknown_column_fails_witness :
    update_excel ⟨["a"], [[Value.int 1]]⟩ [⟨"zz", Value.int 0, "a", Value.int 1⟩] =
      Except.error (UpdateError.keyError "zz") ∧
    updateStored ⟨["a"], [[Value.int 1]]⟩ [⟨"zz", Value.int 0, "a", Value.int 1⟩] =
      ⟨["a"], [[Value.int 1]]⟩ := by
  exact conditionalUpdate_unknown_column_fails ⟨["a"], [[Value.int 1]]⟩
    ⟨["a"], [[Value.int 1]]⟩ 0 [] ⟨"zz", Value.int 0, "a", Value.int 1⟩ []
    rfl (by decide)

/-! ### Machinery for the second-pass behaviour of the merge loop (C9) -/

theorem valueEq_euclid : ∀ (a b c : Value),
    valueEq a b = true → valueEq a c = true → valueEq b c = true := by
  intro a b c h1 h2
  cases a <;> cases b <;> cases c <;>
    simp_all [valueEq, beq_iff_eq] <;>
    (try split_ifs at * <;> simp_all)

theorem getD_eq_of_mem (l : List Row) (row : Row) (h : row ∈ l) :
    ∃ i, i < l.length ∧ l.getD i [] = row := by
  induction l with
  | nil => simp at h
  | cons x xs ih =>
    rcases List.mem_cons.mp h with he | hm
    · exact ⟨0, by simp, he.symm⟩
    · rcases ih hm with ⟨i, hi, hgi⟩
      exact ⟨i + 1, by simpa using hi, by simpa using hgi⟩

theorem processRecord_table_cases (mc : Option String) (st : MergeState) (r : Record) :
    (processRecord mc st r).table = appendRow st.table r ∨
    (∃ m, mc = some m ∧ m ≠ "" ∧ m ∈ keys r ∧ m ∈ st.table.cols ∧
      (matchMask st.table m (recordValue r m)).any (fun b => b) = true ∧
      (processRecord mc st r).table =
        ⟨st.table.cols, updateMatched st.table.cols st.table.rows
          (matchMask st.table m (recordValue r m)) r⟩) := by
  rcases st with ⟨t, u, a⟩
  cases mc with
  | none => exact Or.inl rfl
  | some m =>
    cases hg : ((!(m == "")) && (keys r).contains m && t.cols.contains m) with
    | false =>
      left
      have : processRecord (some m) ⟨t, u, a⟩ r = ⟨appendRow t r, u, a + 1⟩ := by
        simp only [processRecord]
        rw [hg]
        simp
      rw [this]
    | true =>
      have hand := hg
      rw [Bool.and_eq_true, Bool.and_eq_true] at hand
      have hm : m ≠ "" := by
        have := hand.1.1
        simp only [Bool.not_eq_true'] at this
        exact beq_eq_false_iff_ne.mp this
      have hkr : m ∈ keys r := by simpa using hand.1.2
      have hkc : m ∈ t.cols := by simpa using hand.2
      cases hany : ((matchMask t m (recordValue r m)).any (fun b => b)) with
      | false =>
        left
        have : processRecord (some m) ⟨t, u, a⟩ r = ⟨appendRow t r, u, a + 1⟩ :=
          processRecord_append_of t u a r (some m)
            (by
              intro m2 hm2
              injection hm2 with hm2
              subst hm2
              exact Or.inr (Or.inr (Or.inr hany)))
        rw [this]
      | true =>
        right
        refine ⟨m, rfl, hm, hkr, hkc, hany, ?_⟩
        rw [processRecord_matched t u a r m hm hkr hkc hany]

theorem appendRow_WF (t : Table) (r : Record) (hwf : t.WF) : (appendRow t r).WF := by
  intro row hrow
  rcases List.mem_append.mp hrow with hm | hm
  · exact hwf row hm
  · have : row = buildRow t.cols r := by simpa using hm
    rw [this]
    exact length_buildRow t.cols r

theorem processRecord_WF (mc : Option String) (st : MergeState) (r : Record)
    (hwf : st.table.WF) : (processRecord mc st r).table.WF := by
  rcases processRecord_table_cases mc st r with h | ⟨m, _, _, _, _, _, h⟩
  · rw [h]
    exact appendRow_WF st.table r hwf
  · rw [h]
    intro row hrow
    exact updateMatched_WF st.table.cols r st.table.rows _ st.table.cols.length hwf row hrow

theorem foldl_WF (mc : Option String) (rs : List Record) :
    ∀ (st : MergeState), st.table.WF → (rs.foldl (processRecord mc) st).table.WF := by
  induction rs with
  | nil => intro st h; exact h
  | cons r rest ih =>
    intro st h
    exact ih (processRecord mc st r) (processRecord_WF mc st r h)

theorem processRecord_covers_self (st : MergeState) (r : Record) (m : String)
    (hwf : st.table.WF) (hm : m ≠ "") (hkr : m ∈ keys r) (hkc : m ∈ st.table.cols)
    (hnd : (keys r).Nodup)
    (hself : valueEq (recordValue r m) (recordValue r m) = true) :
    covered m (processRecord (some m) st r).table r := by
  rcases st with ⟨t, u, a⟩
  cases hany : ((matchMask t m (recordValue r m)).any (fun b => b)) with
  | false =>
    have hstep : processRecord (some m) ⟨t, u, a⟩ r = ⟨appendRow t r, u, a + 1⟩ :=
      processRecord_append_of t u a r (some m) (by
        intro m2 hm2
        injection hm2 with hm2
        subst hm2
        exact Or.inr (Or.inr (Or.inr hany)))
    rw [hstep]
    refine ⟨buildRow t.cols r, List.mem_append_right _ (by simp), ?_⟩
    show valueEq (getCell t.cols (buildRow t.cols r) m) (recordValue r m) = true
    rw [getCell_buildRow t.cols r m hkc]
    exact hself
  | true =>
    have hstep := processRecord_matched t u a r m hm hkr hkc hany
    rw [hstep]
    obtain ⟨row, hrow, hval⟩ := (mask_any_iff t m (recordValue r m)).mp hany
    obtain ⟨i, hi, hgd⟩ := getD_eq_of_mem t.rows row hrow
    have hlen : (matchMask t m (recordValue r m)).length = t.rows.length := by
      simp [matchMask]
    have hmi : (matchMask t m (recordValue r m)).getD i false = true := by
      unfold matchMask
      rw [getD_map_bool _ t.rows i hi, hgd]
      exact hval
    have hcell := updateMatched_getCell t.cols r t.rows
      (matchMask t m (recordValue r m)) hnd hlen hwf i hi m
    rw [if_pos ⟨hmi, hkr, hkc⟩] at hcell
    have hulen := updateMatched_length t.cols r t.rows
      (matchMask t m (recordValue r m)) hlen
    refine ⟨(updateMatched t.cols t.rows (matchMask t m (recordValue r m)) r).getD i [],
      getD_mem_rows _ i (by rw [hulen]; exact hi), ?_⟩
    show valueEq
      (getCell t.cols
        ((updateMatched t.cols t.rows (matchMask t m (recordValue r m)) r).getD i []) m)
      (recordValue r m) = true
    rw [hcell]
    exact hself

theorem processRecord_preserves_covered (st : MergeState) (r1 r0 : Record) (m : String)
    (hwf : st.table.WF) (hnd1 : (keys r1).Nodup)
    (hcov : covered m st.table r0) :
    covered m (processRecord (some m) st r1).table r0 := by
  rcases processRecord_table_cases (some m) st r1 with h | ⟨m1, hmc, hm1, hkr1, hkc1, hany1, h⟩
  · rw [h]
    obtain ⟨row, hrow, hval⟩ := hcov
    exact ⟨row, List.mem_append_left _ hrow, hval⟩
  · injection hmc with hmc1
    subst hmc1
    obtain ⟨row, hrow, hval⟩ := hcov
    obtain ⟨i, hi, hgd⟩ := getD_eq_of_mem st.table.rows row hrow
    have hlen : (matchMask st.table m (recordValue r1 m)).length = st.table.rows.length := by
      simp [matchMask]
    have hulen := updateMatched_length st.table.cols r1 st.table.rows
      (matchMask st.table m (recordValue r1 m)) hlen
    have hcell := updateMatched_getCell st.table.cols r1 st.table.rows
      (matchMask st.table m (recordValue r1 m)) hnd1 hlen hwf i hi m
    rw [h]
    refine ⟨(updateMatched st.table.cols st.table.rows
        (matchMask st.table m (recordValue r1 m)) r1).getD i [],
      getD_mem_rows _ i (by rw [hulen]; exact hi), ?_⟩
    show valueEq
      (getCell st.table.cols
        ((updateMatched st.table.cols st.table.rows
          (matchMask st.table m (recordValue r1 m)) r1).getD i []) m)
      (recordValue r0 m) = true
    have hmaskd : (matchMask st.table m (recordValue r1 m)).getD i false =
        valueEq (getCell st.table.cols (st.table.rows.getD i []) m) (recordValue r1 m) := by
      unfold matchMask
      exact getD_map_bool _ st.table.rows i hi
    by_cases hmi : (matchMask st.table m (recordValue r1 m)).getD i false = true
    · rw [if_pos ⟨hmi, hkr1, hkc1⟩] at hcell
      rw [hcell]
      have hov1 : valueEq (getCell st.table.cols row m) (recordValue r1 m) = true := by
        rw [← hgd]
        rw [hmaskd] at hmi
        exact hmi
      exact valueEq_euclid (getCell st.table.cols row m) (recordValue r1 m)
        (recordValue r0 m) hov1 hval
    · rw [if_neg (fun hcon => hmi hcon.1)] at hcell
      rw [hcell, hgd]
      exact hval

theorem foldl_preserves_covered (m : String) (rs : List Record) :
    ∀ (st : MergeState) (r0 : Record),
      st.table.WF → (∀ r ∈ rs, (keys r).Nodup) → covered m st.table r0 →
      covered m (rs.foldl (processRecord (some m)) st).table r0 := by
  induction rs with
  | nil => intro st r0 _ _ h; exact h
  | cons r rest ih =>
    intro st r0 hwf hnd hcov
    exact ih (processRecord (some m) st r) r0
      (processRecord_WF _ st r hwf)
      (fun r2 h2 => hnd r2 (List.mem_cons_of_mem r h2))
      (processRecord_preserves_covered st r r0 m hwf (hnd r (List.mem_cons_self r rest)) hcov)

theorem pass1_covers (m : String) (rs : List Record) :
    ∀ (st : MergeState),
      st.table.WF → m ∈ st.table.cols → m ≠ "" →
      (∀ r ∈ rs, (keys r).Nodup ∧ m ∈ keys r ∧
        valueEq (recordValue r m) (recordValue r m) = true) →
      ∀ r ∈ rs, covered m (rs.foldl (processRecord (some m)) st).table r := by
  induction rs with
  | nil => intro st _ _ _ _ r hr; simp at hr
  | cons r1 rest ih =>
    intro st hwf hmc hm hall r0 hr0
    have hr1 := hall r1 (List.mem_cons_self r1 rest)
    have hwf1 : (processRecord (some m) st r1).table.WF := processRecord_WF _ st r1 hwf
    have hcols1 : (processRecord (some m) st r1).table.cols = st.table.cols :=
      processRecord_cols _ st r1
    rcases List.mem_cons.mp hr0 with he | hm0
    · subst he
      show covered m
        ((rest.foldl (processRecord (some m)) (processRecord (some m) st r0))).table r0
      apply foldl_preserves_covered m rest (processRecord (some m) st r0) r0 hwf1
        (fun r2 h2 => (hall r2 (List.mem_cons_of_mem r0 h2)).1)
      exact processRecord_covers_self st r0 m hwf hm hr1.2.1 hmc hr1.1 hr1.2.2
    · show covered m
        ((rest.foldl (processRecord (some m)) (processRecord (some m) st r1))).table r0
      exact ih (processRecord (some m) st r1) hwf1 (by rw [hcols1]; exact hmc) hm
        (fun r2 h2 => hall r2 (List.mem_cons_of_mem r1 h2)) r0 hm0

theorem pass2_no_appends (m : String) (rs : List Record) :
    ∀ (st : MergeState),
      st.table.WF → m ∈ st.table.cols → m ≠ "" →
      (∀ r ∈ rs, (keys r).Nodup ∧ m ∈ keys r) →
      (∀ r ∈ rs, covered m st.table r) →
      (rs.foldl (processRecord (some m)) st).added = st.added ∧
      st.updated + rs.length ≤ (rs.foldl (processRecord (some m)) st).updated := by
  induction rs with
  | nil => intro st _ _ _ _ _; exact ⟨rfl, by simp⟩
  | cons r1 rest ih =>
    intro st hwf hmc hm hall hcov
    rcases st with ⟨t, u, a⟩
    have hr1 := hall r1 (List.mem_cons_self r1 rest)
    have hcov1 := hcov r1 (List.mem_cons_self r1 rest)
    have hany : (matchMask t m (recordValue r1 m)).any (fun b => b) = true :=
      (mask_any_iff t m (recordValue r1 m)).mpr hcov1
    have hstep := processRecord_matched t u a r1 m hm hr1.2 hmc hany
    have hk : 0 < (matchMask t m (recordValue r1 m)).count true :=
      count_true_pos_of_any _ hany
    have hwf1 : (processRecord (some m) ⟨t, u, a⟩ r1).table.WF :=
      processRecord_WF _ _ r1 hwf
    have hcols1 := processRecord_cols (some m) ⟨t, u, a⟩ r1
    have hcovrest : ∀ r ∈ rest, covered m (processRecord (some m) ⟨t, u, a⟩ r1).table r :=
      fun r2 h2 => processRecord_preserves_covered ⟨t, u, a⟩ r1 r2 m hwf hr1.1
        (hcov r2 (List.mem_cons_of_mem r1 h2))
    obtain ⟨ihA, ihU⟩ := ih (processRecord (some m) ⟨t, u, a⟩ r1) hwf1
      (by rw [hcols1]; exact hmc) hm
      (fun r2 h2 => hall r2 (List.mem_cons_of_mem r1 h2)) hcovrest
    constructor
    · show (rest.foldl (processRecord (some m)) (processRecord (some m) ⟨t, u, a⟩ r1)).added = a
      rw [ihA, hstep]
    · show u + (r1 :: rest).length ≤
        (rest.foldl (processRecord (some m)) (processRecord (some m) ⟨t, u, a⟩ r1)).updated
      have hstepu : (processRecord (some m) ⟨t, u, a⟩ r1).updated =
          u + (matchMask t m (recordValue r1 m)).count true := by
        rw [hstep]
      rw [hstepu] at ihU
      simp only [List.length_cons]
      omega

/-- Claim C9 counterexample: re-applying a batch is NOT clean in the way the
claim states.  First conjunct: with the batch already merged, the second
pass reports an updated-count of 1, not 0 — matching rows are counted as
updates even when nothing changes.  Second conjunct: a record whose match
value is null never matches anything (pandas NaN semantics), so the second
pass appends the record AGAIN, reporting a new append. -/
theorem smartMerge_second_pass_counterexample :
    (smartUpdate (smartUpdate ⟨["id"], [[Value.int 1]]⟩
        [[("id", Value.int 1)]] (some "id")).table
      [[("id", Value.int 1)]] (some "id")).updated = 1 ∧
    (smartUpdate (smartUpdate ⟨["id"], ([] : List Row)⟩
        [[("id", Value.null)]] (some "id")).table
      [[("id", Value.null)]] (some "id")).added = 1 := by
  exact ⟨rfl, rfl⟩

/-- Claim C9 amended: when the match column is set, nonempty, present in the
table, and every record of the batch carries it with a non-null (self-equal)
match value, then after one application of the batch every record matches,
so a second application of the same batch appends nothing — but its
updated-count is at least the batch length (each matching record counts its
matched rows), not 0. -/
theorem smartMerge_second_pass (t : Table) (B : List Record) (m : String)
    (hwf : t.WF) (hm : m ≠ "") (hmc : m ∈ t.cols)
    (hrecs : ∀ r ∈ B, (keys r).Nodup ∧ m ∈ keys r ∧
      valueEq (recordValue r m) (recordValue r m) = true) :
    (smartUpdate (smartUpdate t B (some m)).table B (some m)).added = 0 ∧
    B.length ≤ (smartUpdate (smartUpdate t B (some m)).table B (some m)).updated := by
  have hwf1 : (smartUpdate t B (some m)).table.WF := foldl_WF (some m) B ⟨t, 0, 0⟩ hwf
  have hcols1 : (smartUpdate t B (some m)).table.cols = t.cols := smartUpdate_cols t B (some m)
  have hcov : ∀ r ∈ B, covered m (smartUpdate t B (some m)).table r :=
    pass1_covers m B ⟨t, 0, 0⟩ hwf hmc hm hrecs
  obtain ⟨h1, h2⟩ := pass2_no_appends m B ⟨(smartUpdate t B (some m)).table, 0, 0⟩
    hwf1
    (by show m ∈ (smartUpdate t B (some m)).table.cols; rw [hcols1]; exact hmc)
    hm
    (fun r hr => ⟨(hrecs r hr).1, (hrecs r hr).2.1⟩)
    hcov
  exact ⟨h1, by simpa using h2⟩

/-- Witness for the amended C9: merging a two-record batch (one matching two
rows, one new) and merging it again yields zero appends and an updated-count
of at least 2 on the second pass. -/
theorem smartMerge_second_pass_witness :
    (smartUpdate (smartUpdate ⟨["id", "status"],
        [[Value.int 3, Value.str "a"], [Value.int 3, Value.str "b"]]⟩
        [[("id", Value.int 3), ("status", Value.str "done")],
         [("id", Value.int 9), ("status", Value.str "new")]] (some "id")).table
      [[("id", Value.int 3), ("status", Value.str "done")],
       [("id", Value.int 9), ("status", Value.str "new")]] (some "id")).added = 0 ∧
    ([[("id", Value.int 3), ("status", Value.str "done")],
      [("id", Value.int 9), ("status", Value.str "new")]] : List Record).length ≤
      (smartUpdate (smartUpdate ⟨["id", "status"],
          [[Value.int 3, Value.str "a"], [Value.int 3, Value.str "b"]]⟩
          [[("id", Value.int 3), ("status", Value.str "done")],
           [("id", Value.int 9), ("status", Value.str "new")]] (some "id")).table
        [[("id", Value.int 3), ("status", Value.str "done")],
         [("id", Value.int 9), ("status", Value.str "new")]] (some "id")).updated := by
  exact smartMerge_second_pass
    ⟨["id", "status"], [[Value.int 3, Value.str "a"], [Value.int 3, Value.str "b"]]⟩
    [[("id", Value.int 3), ("status", Value.str "done")],
     [("id", Value.int 9), ("status", Value.str "new")]] "id"
    (by unfold Table.WF; decide) (by decide) (by decide) (by decide)

end ExcelService
